import Mathlib

/-!
# Verification of the betting-markets program

Shallow embedding of `src/programs/betting-markets/src/lib.rs`, a parimutuel
betting-market engine, together with proofs of the specified properties.

Modelling conventions:
* `u64` values are `Nat`; additions (`+=` in Rust) are checked and abort the
  whole instruction on overflow past `2^64` (modelled by `chk64`), while the
  Rust `as u64` narrowing cast wraps (modelled by `% U64LIM`).
* Public keys / identities are `Nat`.
* Timestamps (`i64`) are `Int`.
* A failed instruction rolls back every write (Solana transaction semantics):
  each operation returns `Except Err World`, and an `Except.error` outcome
  leaves the pre-state standing.
* The external token transfers (CPIs to the SPL token program) are modelled by
  a `transfer_ok : Bool` parameter: the custodian either accepts or rejects
  the transfer; a rejection propagates as `Err.transferFailed` (the `?` on
  `token::transfer`).
-/

/-- The constant `2^64`, the limit of the `u64` pool counters. -/
def U64LIM : Nat := 18446744073709551616

/-- Checked `u64` addition: Rust `+=` with overflow checks enabled.
Modelled from the spec: the build profile (Cargo.toml, not in `src/`) is
taken to enable overflow checks, per the spec's "without ever allowing
... arithmetic overflow"; an overflowing addition aborts the instruction. -/
def chk64 (a b : Nat) : Option Nat :=
  if a + b < U64LIM then some (a + b) else none

/-- Error codes of the program (`ErrorCode` enum in lib.rs). -/
inductive ErrorCode where
  | InsufficientOutcomes
  | TooManyOutcomes
  | InvalidResolutionTime
  | MarketResolved
  | BettingClosed
  | BetTooSmall
  | InvalidOutcome
  | Unauthorized
  | MarketAlreadyResolved
  | TooEarlyToResolve
  | MarketNotResolved
  | AlreadyClaimed
  | LosingBet
  | NoPayoutAvailable
  deriving Repr, DecidableEq

/-- How an instruction can fail: a program error code (`require!`), a Rust
panic (unwrap on `None`, out-of-bounds index, checked-add overflow), a failed
token-transfer CPI, or the runtime failing to resolve an account. -/
inductive Err where
  | code (e : ErrorCode)
  | panicked
  | transferFailed
  | accountNotFound
  deriving Repr, DecidableEq

/-- The `GlobalState` account. -/
structure GlobalState where
  authority : Nat
  market_count : Nat
  deriving Repr, DecidableEq

/-- The `Market` account. -/
structure Market where
  authority : Nat
  market_id : Nat
  question : String
  outcomes : List String
  outcome_pools : List Nat
  resolution_time : Int
  min_bet : Nat
  resolved : Bool
  winning_outcome : Option Nat
  total_pool : Nat
  created_at : Int
  deriving Repr, DecidableEq

/-- The `Bet` account (the WagerRecord). `market` is the index of the referenced
market (market accounts are PDAs keyed by their creation counter, so the key
determines the index). -/
structure Bet where
  bettor : Nat
  market : Nat
  outcome_index : Nat
  amount : Nat
  claimed : Bool
  timestamp : Int
  deriving Repr, DecidableEq

/-- The on-chain state the program touches: the registry singleton, every
market account (indexed by `market_id`), and every bet account. -/
structure World where
  global : GlobalState
  markets : List Market
  bets : List Bet
  deriving Repr, DecidableEq

/-- The initial deployment state: the singleton registry with a zero counter. -/
def initWorld (authority : Nat) : World :=
  { global := { authority := authority, market_count := 0 }, markets := [], bets := [] }

/-- The `create_market` instruction (lib.rs lines 18-55): validates the outcome count and the
deadline, allocates a market whose id is the current `market_count`, with all
pools zero, then increments `market_count`. -/
def create_market (now : Int) (authority : Nat) (question : String)
    (outcomes : List String) (resolution_time : Int) (min_bet : Nat)
    (w : World) : Except Err World :=
  if ¬ (outcomes.length ≥ 2) then .error (.code .InsufficientOutcomes)
  else if ¬ (outcomes.length ≤ 10) then .error (.code .TooManyOutcomes)
  else if ¬ (resolution_time > now) then .error (.code .InvalidResolutionTime)
  else
    let market : Market :=
      { authority := authority
        question := question
        outcomes := outcomes
        outcome_pools := List.replicate outcomes.length 0
        resolution_time := resolution_time
        min_bet := min_bet
        resolved := false
        winning_outcome := none
        total_pool := 0
        market_id := w.global.market_count
        created_at := now }
    match chk64 w.global.market_count 1 with
    | none => .error .panicked
    | some c =>
        .ok { w with
                global := { w.global with market_count := c }
                markets := w.markets ++ [market] }

/-- The `place_bet` instruction (lib.rs lines 57-102): validates, records the bet fields,
transfers `amount` from the bettor into the market vault, then updates the
outcome pool and the total pool. -/
def place_bet (now : Int) (bettor : Nat) (mIdx : Nat) (outcome_index : Nat)
    (amount : Nat) (transfer_ok : Bool) (w : World) : Except Err World :=
  match w.markets[mIdx]? with
  | none => .error .accountNotFound
  | some market =>
    if market.resolved then .error (.code .MarketResolved)
    else if ¬ (now < market.resolution_time) then .error (.code .BettingClosed)
    else if ¬ (amount ≥ market.min_bet) then .error (.code .BetTooSmall)
    else if ¬ (outcome_index < market.outcomes.length) then .error (.code .InvalidOutcome)
    else
      let bet : Bet :=
        { bettor := bettor
          market := mIdx
          outcome_index := outcome_index
          amount := amount
          claimed := false
          timestamp := now }
      if ¬ transfer_ok then .error .transferFailed
      else
        match market.outcome_pools[outcome_index]? with
        | none => .error .panicked
        | some p =>
          match chk64 p amount, chk64 market.total_pool amount with
          | some p', some t' =>
              .ok { w with
                      markets := w.markets.set mIdx
                        { market with
                            outcome_pools := market.outcome_pools.set outcome_index p'
                            total_pool := t' }
                      bets := w.bets ++ [bet] }
          | _, _ => .error .panicked

/-- The `resolve_market` instruction (lib.rs lines 104-125): authority, phase, time and range
checks, then marks the market resolved with the given winning outcome. -/
def resolve_market (now : Int) (caller : Nat) (mIdx : Nat)
    (winning_outcome_index : Nat) (w : World) : Except Err World :=
  match w.markets[mIdx]? with
  | none => .error .accountNotFound
  | some market =>
    if ¬ (caller = market.authority) then .error (.code .Unauthorized)
    else if market.resolved then .error (.code .MarketAlreadyResolved)
    else if ¬ (now ≥ market.resolution_time) then .error (.code .TooEarlyToResolve)
    else if ¬ (winning_outcome_index < market.outcomes.length) then .error (.code .InvalidOutcome)
    else
      .ok { w with
              markets := w.markets.set mIdx
                { market with
                    resolved := true
                    winning_outcome := some winning_outcome_index } }

/-- The payout expression of `claim_payout` (lib.rs lines 140-144): the
product and quotient are computed in `u128` (which cannot overflow, both
factors being `u64`), and the result is narrowed back to `u64` by an `as u64`
cast, which wraps. -/
def payoutCalc (amount total_pool winning_pool : Nat) : Nat :=
  if winning_pool > 0 then (amount * total_pool / winning_pool) % U64LIM else 0

/-- First part of `claim_payout` (lib.rs lines 127-148): every check, the
payout computation, and the write setting `claimed := true` — everything the
handler does before it invokes the outbound token transfer.  Returns the
post-write state together with the computed payout. -/
def claim_prepare (mIdx betIdx : Nat) (claimant : Nat) (w : World) :
    Except Err (World × Nat) :=
  match w.markets[mIdx]?, w.bets[betIdx]? with
  | some market, some bet =>
    if ¬ market.resolved then .error (.code .MarketNotResolved)
    else if bet.claimed then .error (.code .AlreadyClaimed)
    else if ¬ (bet.bettor = claimant) then .error (.code .Unauthorized)
    else
      match market.winning_outcome with
      | none => .error .panicked
      | some winning_outcome =>
        if ¬ (bet.outcome_index = winning_outcome) then .error (.code .LosingBet)
        else
          match market.outcome_pools[winning_outcome]? with
          | none => .error .panicked
          | some winning_pool =>
            let payout := payoutCalc bet.amount market.total_pool winning_pool
            if ¬ (payout > 0) then .error (.code .NoPayoutAvailable)
            else
              .ok ({ w with bets := w.bets.set betIdx { bet with claimed := true } },
                   payout)
  | _, _ => .error .accountNotFound

/-- The `claim_payout` instruction (lib.rs lines 127-176): the checks, payout computation and
the `claimed := true` write of `claim_prepare`, followed by the outbound
transfer of the payout from the market vault to the bettor.  The `claimed`
write precedes the transfer in the handler body (lines 148 and 151). -/
def claim_payout (mIdx betIdx : Nat) (claimant : Nat) (transfer_ok : Bool)
    (w : World) : Except Err World :=
  match claim_prepare mIdx betIdx claimant w with
  | .error e => .error e
  | .ok (w', _payout) =>
      if transfer_ok then .ok w' else .error .transferFailed

/-- One successful instruction of the program. -/
inductive Step : World → World → Prop where
  | create {w w' : World} (now : Int) (authority : Nat) (question : String)
      (outcomes : List String) (resolution_time : Int) (min_bet : Nat) :
      create_market now authority question outcomes resolution_time min_bet w = .ok w' →
      Step w w'
  | bet {w w' : World} (now : Int) (bettor mIdx outcome_index amount : Nat)
      (transfer_ok : Bool) :
      place_bet now bettor mIdx outcome_index amount transfer_ok w = .ok w' →
      Step w w'
  | resolve {w w' : World} (now : Int) (caller mIdx winning_outcome_index : Nat) :
      resolve_market now caller mIdx winning_outcome_index w = .ok w' →
      Step w w'
  | claim {w w' : World} (mIdx betIdx claimant : Nat) (transfer_ok : Bool) :
      claim_payout mIdx betIdx claimant transfer_ok w = .ok w' →
      Step w w'

/-- The states observable on chain: the freshly initialized deployment and
everything a sequence of successful instructions can produce.  (A failed
instruction leaves the state unchanged, so it need not appear.) -/
inductive Reachable : World → Prop where
  | init (authority : Nat) : Reachable (initWorld authority)
  | step {w w' : World} : Reachable w → Step w w' → Reachable w'

/-- Zero or more successful instructions. -/
def Steps : World → World → Prop := Relation.ReflTransGen Step

/-- The state left behind by an instruction outcome: a successful instruction
commits its writes, a failed one commits nothing (Solana rollback). -/
def runInstr (r : Except Err World) (w : World) : World :=
  match r with
  | .ok w' => w'
  | .error _ => w

/-! ## A concrete run of the program (the spec's Scenario A)

One market "q" with outcomes ["Yes", "No"], deadline 100, minimum bet 1;
wager of 300 on outcome 0, wager of 100 on outcome 1; resolved to outcome 0
at time 100; the winning wager claims 400. -/

def exW0 : World := initWorld 1

def exM1 : Market :=
  { authority := 1, market_id := 0, question := "q", outcomes := ["Yes", "No"],
    outcome_pools := [0, 0], resolution_time := 100, min_bet := 1,
    resolved := false, winning_outcome := none, total_pool := 0, created_at := 0 }

def exW1 : World :=
  { global := { authority := 1, market_count := 1 }, markets := [exM1], bets := [] }

def exB1 : Bet :=
  { bettor := 2, market := 0, outcome_index := 0, amount := 300,
    claimed := false, timestamp := 5 }

def exM2 : Market := { exM1 with outcome_pools := [300, 0], total_pool := 300 }

def exW2 : World :=
  { global := { authority := 1, market_count := 1 }, markets := [exM2], bets := [exB1] }

def exB2 : Bet :=
  { bettor := 3, market := 0, outcome_index := 1, amount := 100,
    claimed := false, timestamp := 6 }

def exM3 : Market := { exM1 with outcome_pools := [300, 100], total_pool := 400 }

def exW3 : World :=
  { global := { authority := 1, market_count := 1 }, markets := [exM3],
    bets := [exB1, exB2] }

def exM4 : Market := { exM3 with resolved := true, winning_outcome := some 0 }

def exW4 : World :=
  { global := { authority := 1, market_count := 1 }, markets := [exM4],
    bets := [exB1, exB2] }

def exW5 : World :=
  { global := { authority := 1, market_count := 1 }, markets := [exM4],
    bets := [{ exB1 with claimed := true }, exB2] }

/-! ## Inversion lemmas: what a successful instruction tells us -/

/-- Successful `create_market`: the checks passed and the post-state appends
one fresh market whose id is the pre-state counter, incrementing the counter. -/
theorem create_market_ok {now : Int} {authority : Nat} {question : String}
    {outcomes : List String} {resolution_time : Int} {min_bet : Nat}
    {w w' : World}
    (h : create_market now authority question outcomes resolution_time min_bet w = .ok w') :
    2 ≤ outcomes.length ∧ outcomes.length ≤ 10 ∧ now < resolution_time ∧
    w.global.market_count + 1 < U64LIM ∧
    w' = { w with
             global := { w.global with market_count := w.global.market_count + 1 }
             markets := w.markets ++
               [{ authority := authority
                  question := question
                  outcomes := outcomes
                  outcome_pools := List.replicate outcomes.length 0
                  resolution_time := resolution_time
                  min_bet := min_bet
                  resolved := false
                  winning_outcome := none
                  total_pool := 0
                  market_id := w.global.market_count
                  created_at := now }] } := by
  unfold create_market at h
  split_ifs at h with h1 h2 h3
  rcases hc : chk64 w.global.market_count 1 with _ | c <;> rw [hc] at h
  · exact absurd h (by simp)
  · unfold chk64 at hc
    split_ifs at hc with h4
    simp only [Except.ok.injEq] at h
    refine ⟨by omega, by omega, by omega, by omega, ?_⟩
    rw [← h]
    simp only [Option.some.injEq] at hc
    rw [← hc]

/-- A successful checked addition returns the exact sum, which is in range. -/
theorem chk64_some {a b c : Nat} (h : chk64 a b = some c) :
    c = a + b ∧ a + b < U64LIM := by
  unfold chk64 at h
  split_ifs at h with h1
  simp only [Option.some.injEq] at h
  exact ⟨h.symm, h1⟩

/-- Successful `place_bet`: every check passed, the transfer went through, and
the post-state updates exactly the bet-upon pool and the total, appending one
unclaimed bet record. -/
theorem place_bet_ok {now : Int} {bettor mIdx outcome_index amount : Nat}
    {transfer_ok : Bool} {w w' : World}
    (h : place_bet now bettor mIdx outcome_index amount transfer_ok w = .ok w') :
    ∃ market p, w.markets[mIdx]? = some market ∧
      market.resolved = false ∧ now < market.resolution_time ∧
      market.min_bet ≤ amount ∧ outcome_index < market.outcomes.length ∧
      transfer_ok = true ∧
      market.outcome_pools[outcome_index]? = some p ∧
      p + amount < U64LIM ∧ market.total_pool + amount < U64LIM ∧
      w' = { w with
               markets := w.markets.set mIdx
                 { market with
                     outcome_pools := market.outcome_pools.set outcome_index (p + amount)
                     total_pool := market.total_pool + amount }
               bets := w.bets ++
                 [{ bettor := bettor
                    market := mIdx
                    outcome_index := outcome_index
                    amount := amount
                    claimed := false
                    timestamp := now }] } := by
  unfold place_bet at h
  split at h
  · exact absurd h (by simp)
  rename_i market hm
  split_ifs at h with h1 h2 h3 h4 h5
  split at h
  · exact absurd h (by simp)
  rename_i p hp
  split at h
  case _ p' t' hc1 hc2 =>
    obtain ⟨hp', hb1⟩ := chk64_some hc1
    obtain ⟨ht', hb2⟩ := chk64_some hc2
    simp only [Except.ok.injEq] at h
    refine ⟨market, p, hm, by simpa using h1, by omega, by omega, by omega,
      by simpa using h5, hp, hb1, hb2, ?_⟩
    rw [← h, ← hp', ← ht']
  case _ x y hne =>
    exact absurd h (by simp)

/-- Successful `resolve_market`: every check passed, and the post-state only
replaces the market with a copy marked resolved with the given outcome. -/
theorem resolve_market_ok {now : Int} {caller mIdx winning_outcome_index : Nat}
    {w w' : World}
    (h : resolve_market now caller mIdx winning_outcome_index w = .ok w') :
    ∃ market, w.markets[mIdx]? = some market ∧
      caller = market.authority ∧ market.resolved = false ∧
      market.resolution_time ≤ now ∧
      winning_outcome_index < market.outcomes.length ∧
      w' = { w with
               markets := w.markets.set mIdx
                 { market with
                     resolved := true
                     winning_outcome := some winning_outcome_index } } := by
  unfold resolve_market at h
  split at h
  · exact absurd h (by simp)
  rename_i market hm
  split_ifs at h with h1 h2 h3 h4
  simp only [Except.ok.injEq] at h
  exact ⟨market, hm, by omega, by simpa using h2, by omega, by omega, h.symm⟩

/-- Successful `claim_prepare`: every check passed, the computed payout is
positive, and the post-state only flips the bet's `claimed` flag. -/
theorem claim_prepare_ok {mIdx betIdx claimant : Nat} {w w' : World} {payout : Nat}
    (h : claim_prepare mIdx betIdx claimant w = .ok (w', payout)) :
    ∃ market bet winning_outcome winning_pool,
      w.markets[mIdx]? = some market ∧ w.bets[betIdx]? = some bet ∧
      market.resolved = true ∧ bet.claimed = false ∧ bet.bettor = claimant ∧
      market.winning_outcome = some winning_outcome ∧
      bet.outcome_index = winning_outcome ∧
      market.outcome_pools[winning_outcome]? = some winning_pool ∧
      payout = payoutCalc bet.amount market.total_pool winning_pool ∧
      0 < payout ∧
      w' = { w with bets := w.bets.set betIdx { bet with claimed := true } } := by
  unfold claim_prepare at h
  split at h
  case _ market bet hm hb =>
    split_ifs at h with h1 h2 h3
    split at h
    · exact absurd h (by simp)
    rename_i wo hw
    split_ifs at h with h4
    split at h
    · exact absurd h (by simp)
    rename_i wp hp
    simp only [] at h
    split_ifs at h with h5
    simp only [Except.ok.injEq, Prod.mk.injEq] at h
    exact ⟨market, bet, wo, wp, hm, hb, by simpa using h1, by simpa using h2,
      by omega, hw, by omega, hp, h.2.symm, by omega, h.1.symm⟩
  case _ hne =>
    exact absurd h (by simp)

/-- Successful `claim_payout`: the transfer went through and the state change
is exactly that of `claim_prepare`. -/
theorem claim_payout_ok {mIdx betIdx claimant : Nat} {transfer_ok : Bool}
    {w w' : World}
    (h : claim_payout mIdx betIdx claimant transfer_ok w = .ok w') :
    transfer_ok = true ∧
    ∃ payout, claim_prepare mIdx betIdx claimant w = .ok (w', payout) := by
  unfold claim_payout at h
  split at h
  · exact absurd h (by simp)
  rename_i pr w₀ payout hp
  split_ifs at h with h1
  simp only [Except.ok.injEq] at h
  exact ⟨h1, payout, by rw [hp, h]⟩

/-! ## The reachable-state invariant -/

/-- Replacing the entry at a valid index changes a list's sum by the
difference of new and old entry. -/
theorem sum_set_add {l : List Nat} {i p : Nat} (h : l[i]? = some p) (v : Nat) :
    (l.set i v).sum + p = l.sum + v := by
  induction l generalizing i with
  | nil => simp at h
  | cons a l ih =>
    cases i with
    | zero =>
      simp only [List.getElem?_cons_zero, Option.some.injEq] at h
      simp [List.set, ← h]
      omega
    | succ i =>
      simp only [List.getElem?_cons_succ] at h
      simp only [List.set, List.sum_cons]
      have := ih h
      omega

/-- Structural invariant of a single market account. -/
def MarketInv (m : Market) : Prop :=
  m.outcome_pools.length = m.outcomes.length ∧
  2 ≤ m.outcomes.length ∧ m.outcomes.length ≤ 10 ∧
  m.total_pool = m.outcome_pools.sum ∧
  m.total_pool < U64LIM ∧
  (m.resolved = true → ∃ i, m.winning_outcome = some i ∧ i < m.outcomes.length)

/-- Invariant tying a bet account to its market: the referenced market
exists and the bet-upon pool holds at least the bet's amount. -/
def BetInv (w : World) (b : Bet) : Prop :=
  ∃ m p, w.markets[b.market]? = some m ∧
    m.outcome_pools[b.outcome_index]? = some p ∧ b.amount ≤ p

/-- Invariant of the whole on-chain state. -/
def WorldInv (w : World) : Prop :=
  (∀ (i : Nat) (m : Market), w.markets[i]? = some m → MarketInv m) ∧
  (∀ (j : Nat) (b : Bet), w.bets[j]? = some b → BetInv w b)

theorem worldInv_init (authority : Nat) : WorldInv (initWorld authority) := by
  constructor <;> intro i x hx <;> simp [initWorld] at hx

theorem worldInv_create {now : Int} {authority : Nat} {question : String}
    {outcomes : List String} {resolution_time : Int} {min_bet : Nat}
    {w w' : World}
    (h : create_market now authority question outcomes resolution_time min_bet w = .ok w')
    (hw : WorldInv w) : WorldInv w' := by
  obtain ⟨h2, h10, _, _, hw'⟩ := create_market_ok h
  obtain ⟨hmk, hbt⟩ := hw
  subst hw'
  constructor
  · intro i m hm
    simp only at hm
    by_cases hi : i < w.markets.length
    · rw [List.getElem?_append_left hi] at hm
      exact hmk i m hm
    · rw [List.getElem?_append_right (by omega)] at hm
      rcases Nat.lt_or_ge (i - w.markets.length) 1 with hlt | hge
      · interval_cases h' : i - w.markets.length
        simp only [List.getElem?_cons_zero, Option.some.injEq] at hm
        refine hm ▸ ⟨by simp, h2, h10, by simp, by simp [U64LIM], by simp⟩
      · rw [List.getElem?_eq_none (by simpa using hge)] at hm
        exact absurd hm (by simp)
  · intro j b hb
    simp only at hb
    obtain ⟨m, p, hm, hp, hle⟩ := hbt j b hb
    have hlt : b.market < w.markets.length := (List.getElem?_eq_some.mp hm).1
    exact ⟨m, p, by simpa [List.getElem?_append_left hlt] using hm, hp, hle⟩

theorem worldInv_bet {now : Int} {bettor mIdx outcome_index amount : Nat}
    {transfer_ok : Bool} {w w' : World}
    (h : place_bet now bettor mIdx outcome_index amount transfer_ok w = .ok w')
    (hw : WorldInv w) : WorldInv w' := by
  obtain ⟨market, p, hm, hres, _, _, hidx, _, hp, hb1, hb2, hw'⟩ := place_bet_ok h
  obtain ⟨hmk, hbt⟩ := hw
  have hmlt : mIdx < w.markets.length := (List.getElem?_eq_some.mp hm).1
  have hplt : outcome_index < market.outcome_pools.length := (List.getElem?_eq_some.mp hp).1
  obtain ⟨hlen, hge2, hle10, hsum, hbound, _⟩ := hmk mIdx market hm
  subst hw'
  have hsum' : (market.outcome_pools.set outcome_index (p + amount)).sum
      = market.outcome_pools.sum + amount := by
    have := sum_set_add hp (p + amount)
    omega
  constructor
  · intro i m hmi
    simp only at hmi
    by_cases hi : mIdx = i
    · subst hi
      rw [List.getElem?_set_self hmlt] at hmi
      simp only [Option.some.injEq] at hmi
      refine hmi ▸ ⟨by simpa using hlen, hge2, hle10, by simpa [hsum'] using hsum.symm ▸ rfl, ?_, ?_⟩
      · simpa using hb2
      · simp [hres]
    · rw [List.getElem?_set_ne hi] at hmi
      exact hmk i m hmi
  · intro j b hbj
    simp only at hbj
    by_cases hj : j < w.bets.length
    · rw [List.getElem?_append_left hj] at hbj
      obtain ⟨m0, p0, hm0, hp0, hle0⟩ := hbt j b hbj
      by_cases hbm : mIdx = b.market
      · have hm0' : m0 = market := by
          rw [← hbm] at hm0
          rw [hm0] at hm
          simpa using hm
        subst hm0'
        by_cases hoi : outcome_index = b.outcome_index
        · refine ⟨{ m0 with
              outcome_pools := m0.outcome_pools.set outcome_index (p + amount)
              total_pool := m0.total_pool + amount }, p + amount, ?_, ?_, ?_⟩
          · rw [← hbm, List.getElem?_set_self hmlt]
          · simp only
            rw [← hoi, List.getElem?_set_self hplt]
          · rw [← hoi] at hp0
            rw [hp0] at hp
            simp only [Option.some.injEq] at hp
            omega
        · refine ⟨{ m0 with
              outcome_pools := m0.outcome_pools.set outcome_index (p + amount)
              total_pool := m0.total_pool + amount }, p0, ?_, ?_, hle0⟩
          · rw [← hbm, List.getElem?_set_self hmlt]
          · simp only
            rw [List.getElem?_set_ne hoi]
            exact hp0
      · exact ⟨m0, p0, by rw [List.getElem?_set_ne hbm]; exact hm0, hp0, hle0⟩
    · rw [List.getElem?_append_right (by omega)] at hbj
      rcases Nat.lt_or_ge (j - w.bets.length) 1 with hlt | hge
      · interval_cases h' : j - w.bets.length
        simp only [List.getElem?_cons_zero, Option.some.injEq] at hbj
        subst hbj
        refine ⟨{ market with
            outcome_pools := market.outcome_pools.set outcome_index (p + amount)
            total_pool := market.total_pool + amount }, p + amount, ?_, ?_,
          by simp⟩
        · simp only
          rw [List.getElem?_set_self hmlt]
        · simp only
          rw [List.getElem?_set_self hplt]
      · rw [List.getElem?_eq_none (by simpa using hge)] at hbj
        exact absurd hbj (by simp)

theorem worldInv_resolve {now : Int} {caller mIdx winning_outcome_index : Nat}
    {w w' : World}
    (h : resolve_market now caller mIdx winning_outcome_index w = .ok w')
    (hw : WorldInv w) : WorldInv w' := by
  obtain ⟨market, hm, _, _, _, hrange, hw'⟩ := resolve_market_ok h
  obtain ⟨hmk, hbt⟩ := hw
  have hmlt : mIdx < w.markets.length := (List.getElem?_eq_some.mp hm).1
  obtain ⟨hlen, hge2, hle10, hsum, hbound, _⟩ := hmk mIdx market hm
  subst hw'
  constructor
  · intro i m hmi
    simp only at hmi
    by_cases hi : mIdx = i
    · subst hi
      rw [List.getElem?_set_self hmlt] at hmi
      simp only [Option.some.injEq] at hmi
      exact hmi ▸ ⟨hlen, hge2, hle10, hsum, hbound,
        fun _ => ⟨winning_outcome_index, rfl, hrange⟩⟩
    · rw [List.getElem?_set_ne hi] at hmi
      exact hmk i m hmi
  · intro j b hbj
    simp only at hbj
    obtain ⟨m0, p0, hm0, hp0, hle0⟩ := hbt j b hbj
    by_cases hbm : mIdx = b.market
    · have hm0' : m0 = market := by
        rw [← hbm] at hm0
        rw [hm0] at hm
        simpa using hm
      subst hm0'
      refine ⟨{ m0 with
          resolved := true
          winning_outcome := some winning_outcome_index }, p0, ?_, hp0, hle0⟩
      rw [← hbm, List.getElem?_set_self hmlt]
    · exact ⟨m0, p0, by rw [List.getElem?_set_ne hbm]; exact hm0, hp0, hle0⟩

theorem worldInv_claim {mIdx betIdx claimant : Nat} {transfer_ok : Bool}
    {w w' : World}
    (h : claim_payout mIdx betIdx claimant transfer_ok w = .ok w')
    (hw : WorldInv w) : WorldInv w' := by
  obtain ⟨_, payout, hprep⟩ := claim_payout_ok h
  obtain ⟨market, bet, wo, wp, hm, hb, _, _, _, _, _, _, _, _, hw'⟩ := claim_prepare_ok hprep
  obtain ⟨hmk, hbt⟩ := hw
  have hblt : betIdx < w.bets.length := (List.getElem?_eq_some.mp hb).1
  subst hw'
  constructor
  · intro i m hmi
    exact hmk i m hmi
  · intro j b hbj
    simp only at hbj
    by_cases hj : betIdx = j
    · subst hj
      rw [List.getElem?_set_self hblt] at hbj
      simp only [Option.some.injEq] at hbj
      obtain ⟨m0, p0, hm0, hp0, hle0⟩ := hbt betIdx bet hb
      exact ⟨m0, p0, by rw [← hbj]; exact hm0, by rw [← hbj]; exact hp0,
        by rw [← hbj]; exact hle0⟩
    · rw [List.getElem?_set_ne hj] at hbj
      exact hbt j b hbj

/-- Every reachable state satisfies the invariant. -/
theorem reachable_worldInv {w : World} (h : Reachable w) : WorldInv w := by
  induction h with
  | init authority => exact worldInv_init authority
  | step _ hs ih =>
    cases hs with
    | create _ _ _ _ _ _ hop => exact worldInv_create hop ih
    | bet _ _ _ _ _ _ hop => exact worldInv_bet hop ih
    | resolve _ _ _ _ hop => exact worldInv_resolve hop ih
    | claim _ _ _ _ hop => exact worldInv_claim hop ih

/-! ## The concrete run, step by step -/

theorem exStep01 : create_market 0 1 "q" ["Yes", "No"] 100 1 exW0 = .ok exW1 := by
  rfl

theorem exStep12 : place_bet 5 2 0 0 300 true exW1 = .ok exW2 := by
  rfl

theorem exStep23 : place_bet 6 3 0 1 100 true exW2 = .ok exW3 := by
  rfl

theorem exStep34 : resolve_market 100 1 0 0 exW3 = .ok exW4 := by
  rfl

theorem exStep45 : claim_payout 0 0 2 true exW4 = .ok exW5 := by
  rfl

theorem exReach0 : Reachable exW0 := .init 1

theorem exReach1 : Reachable exW1 :=
  .step exReach0 (.create 0 1 "q" ["Yes", "No"] 100 1 exStep01)

theorem exReach2 : Reachable exW2 :=
  .step exReach1 (.bet 5 2 0 0 300 true exStep12)

theorem exReach3 : Reachable exW3 :=
  .step exReach2 (.bet 6 3 0 1 100 true exStep23)

theorem exReach4 : Reachable exW4 :=
  .step exReach3 (.resolve 100 1 0 0 exStep34)

/-! ## Monotone facts along instruction sequences -/

/-- One instruction never un-resolves a market and never un-claims a bet. -/
theorem step_mono {w w' : World} (hs : Step w w') :
    (∀ (i : Nat) (m : Market), w.markets[i]? = some m → m.resolved = true →
      ∃ m', w'.markets[i]? = some m' ∧ m'.resolved = true) ∧
    (∀ (j : Nat) (b : Bet), w.bets[j]? = some b → b.claimed = true →
      ∃ b', w'.bets[j]? = some b' ∧ b'.claimed = true) := by
  cases hs with
  | create now authority question outcomes rt mb hop =>
    obtain ⟨_, _, _, _, hw'⟩ := create_market_ok hop
    subst hw'
    constructor
    · intro i m hm hr
      have hi : i < w.markets.length := (List.getElem?_eq_some.mp hm).1
      exact ⟨m, by simpa [List.getElem?_append_left hi] using hm, hr⟩
    · intro j b hb hc
      exact ⟨b, hb, hc⟩
  | bet now bettor mIdx outcome_index amount transfer_ok hop =>
    obtain ⟨market, p, hm, hres, _, _, _, _, _, _, _, hw'⟩ := place_bet_ok hop
    have hmlt : mIdx < w.markets.length := (List.getElem?_eq_some.mp hm).1
    subst hw'
    constructor
    · intro i m hmi hr
      by_cases hi : mIdx = i
      · subst hi
        rw [hmi] at hm
        simp only [Option.some.injEq] at hm
        rw [← hm] at hres
        rw [hres] at hr
        exact absurd hr (by simp)
      · exact ⟨m, by simp only; rw [List.getElem?_set_ne hi]; exact hmi, hr⟩
    · intro j b hb hc
      have hj : j < w.bets.length := (List.getElem?_eq_some.mp hb).1
      exact ⟨b, by simpa [List.getElem?_append_left hj] using hb, hc⟩
  | resolve now caller mIdx winning_outcome_index hop =>
    obtain ⟨market, hm, _, _, _, _, hw'⟩ := resolve_market_ok hop
    have hmlt : mIdx < w.markets.length := (List.getElem?_eq_some.mp hm).1
    subst hw'
    constructor
    · intro i m hmi hr
      by_cases hi : mIdx = i
      · subst hi
        refine ⟨{ market with
            resolved := true
            winning_outcome := some winning_outcome_index }, ?_, rfl⟩
        simp only
        rw [List.getElem?_set_self hmlt]
      · exact ⟨m, by simp only; rw [List.getElem?_set_ne hi]; exact hmi, hr⟩
    · intro j b hb hc
      exact ⟨b, hb, hc⟩
  | claim mIdx betIdx claimant transfer_ok hop =>
    obtain ⟨_, payout, hprep⟩ := claim_payout_ok hop
    obtain ⟨market, bet, wo, wp, hm, hb, _, _, _, _, _, _, _, _, hw'⟩ :=
      claim_prepare_ok hprep
    have hblt : betIdx < w.bets.length := (List.getElem?_eq_some.mp hb).1
    subst hw'
    constructor
    · intro i m hmi hr
      exact ⟨m, hmi, hr⟩
    · intro j b hbj hc
      by_cases hj : betIdx = j
      · subst hj
        refine ⟨{ bet with claimed := true }, ?_, rfl⟩
        simp only
        rw [List.getElem?_set_self hblt]
      · exact ⟨b, by simp only; rw [List.getElem?_set_ne hj]; exact hbj, hc⟩

/-- Along any instruction sequence, a resolved market stays resolved and a
claimed bet stays claimed. -/
theorem steps_mono {w w' : World} (hs : Steps w w') :
    (∀ (i : Nat) (m : Market), w.markets[i]? = some m → m.resolved = true →
      ∃ m', w'.markets[i]? = some m' ∧ m'.resolved = true) ∧
    (∀ (j : Nat) (b : Bet), w.bets[j]? = some b → b.claimed = true →
      ∃ b', w'.bets[j]? = some b' ∧ b'.claimed = true) := by
  induction hs with
  | refl =>
    exact ⟨fun i m hm hr => ⟨m, hm, hr⟩, fun j b hb hc => ⟨b, hb, hc⟩⟩
  | tail _ hstep ih =>
    obtain ⟨ihm, ihb⟩ := ih
    obtain ⟨sm, sb⟩ := step_mono hstep
    constructor
    · intro i m hm hr
      obtain ⟨m1, hm1, hr1⟩ := ihm i m hm hr
      exact sm i m1 hm1 hr1
    · intro j b hb hc
      obtain ⟨b1, hb1, hc1⟩ := ihb j b hb hc
      exact sb j b1 hb1 hc1

/-! ## The claimed properties -/

/-- C1: For every Market, at every observable point (after creation and after
every successful `place_bet`, `resolve_market` and `claim_payout`, i.e. in
every reachable state), the field `total_pool` equals the sum of the entries
of `outcome_pools`. -/
theorem C1_total_pool_eq_sum_outcome_pools {w : World} (h : Reachable w) :
    ∀ (i : Nat) (m : Market), w.markets[i]? = some m →
      m.total_pool = m.outcome_pools.sum :=
  fun i m hm => ((reachable_worldInv h).1 i m hm).2.2.2.1

/-- Witness for C1: in the concrete reachable state after two bets, the
market's total pool 400 equals the sum of its pools [300, 100]. -/
theorem C1_total_pool_eq_sum_outcome_pools_witness :
    exW3.markets[0]? = some exM3 ∧ exM3.total_pool = exM3.outcome_pools.sum :=
  ⟨rfl, C1_total_pool_eq_sum_outcome_pools exReach3 0 exM3 rfl⟩

/-- On a state satisfying the invariant, `claim_prepare` never reaches the
`unwrap` panic or an out-of-bounds pool access. -/
theorem claim_prepare_no_panic {mIdx betIdx claimant : Nat} {w : World}
    (hw : WorldInv w) :
    claim_prepare mIdx betIdx claimant w ≠ .error .panicked := by
  unfold claim_prepare
  rcases hm : w.markets[mIdx]? with _ | market
  · rcases hb : w.bets[betIdx]? with _ | bet <;> simp
  rcases hb : w.bets[betIdx]? with _ | bet
  · simp
  simp only
  by_cases h1 : market.resolved = true
  case neg => simp [h1]
  by_cases h2 : bet.claimed = true
  case pos => simp [h1, h2]
  by_cases h3 : bet.bettor = claimant
  case neg => simp [h1, h2, h3]
  obtain ⟨hlen, _, _, _, _, hres⟩ := hw.1 mIdx market hm
  obtain ⟨i, hsome, hilt⟩ := hres h1
  rcases hwo : market.winning_outcome with _ | wo
  · rw [hwo] at hsome
    exact absurd hsome (by simp)
  have hiwo : i = wo := by
    rw [hwo] at hsome
    simpa using hsome.symm
  subst hiwo
  by_cases h4 : bet.outcome_index = i
  case neg => simp [h1, h2, h3, hwo, h4]
  rcases hp : market.outcome_pools[i]? with _ | wp
  · rw [List.getElem?_eq_none_iff] at hp
    omega
  by_cases h5 : payoutCalc bet.amount market.total_pool wp > 0
  · simp [h1, h2, h3, hwo, h4, hp, h5]
  · simp [h1, h2, h3, hwo, h4, hp, h5]

/-- C10: In every reachable state, a resolved market has `winning_outcome`
set (only `resolve_market` sets `resolved`, and it sets `winning_outcome` in
the same step), so the `unwrap` in `claim_payout` — which runs only after the
`resolved` check passes — never panics. -/
theorem C10_resolved_implies_winning_outcome_and_no_panic {w : World}
    (h : Reachable w) :
    (∀ (i : Nat) (m : Market), w.markets[i]? = some m → m.resolved = true →
      ∃ wo, m.winning_outcome = some wo) ∧
    (∀ (mIdx betIdx claimant : Nat) (t : Bool),
      claim_payout mIdx betIdx claimant t w ≠ .error .panicked) := by
  have hinv := reachable_worldInv h
  constructor
  · intro i m hm hr
    obtain ⟨wo, hwo, _⟩ := (hinv.1 i m hm).2.2.2.2.2 hr
    exact ⟨wo, hwo⟩
  · intro mIdx betIdx claimant t heq
    unfold claim_payout at heq
    split at heq
    case _ e hcp =>
      simp only [Except.error.injEq] at heq
      rw [heq] at hcp
      exact claim_prepare_no_panic hinv hcp
    case _ pr w0 payout hcp =>
      split_ifs at heq with h1
      exact absurd heq (by simp)

/-- Witness for C10: in the concrete resolved state, the winning outcome is
set and the winning wager's claim does not panic. -/
theorem C10_resolved_implies_winning_outcome_and_no_panic_witness :
    (∃ wo, exM4.winning_outcome = some wo) ∧
    claim_payout 0 0 2 true exW4 ≠ .error .panicked :=
  ⟨(C10_resolved_implies_winning_outcome_and_no_panic exReach4).1 0 exM4 rfl rfl,
   (C10_resolved_implies_winning_outcome_and_no_panic exReach4).2 0 0 2 true⟩

/-- C3: `claim_payout` succeeds at most once per wager: a successful claim
sets `claimed := true`, and every later `claim_payout` on the same wager —
after any number of further successful instructions — fails with
`AlreadyClaimed` (and, failing, commits nothing under the rollback
semantics). -/
theorem C3_claim_payout_at_most_once {w w' w'' : World}
    {mIdx betIdx claimant claimant2 : Nat} {t t2 : Bool}
    (h1 : claim_payout mIdx betIdx claimant t w = .ok w')
    (h2 : Steps w' w'') :
    claim_payout mIdx betIdx claimant2 t2 w'' = .error (.code .AlreadyClaimed) := by
  obtain ⟨_, payout, hprep⟩ := claim_payout_ok h1
  obtain ⟨market, bet, wo, wp, hm, hb, hres, _, _, _, _, _, _, _, hw'⟩ :=
    claim_prepare_ok hprep
  have hblt : betIdx < w.bets.length := (List.getElem?_eq_some.mp hb).1
  have hm' : w'.markets[mIdx]? = some market := by
    rw [hw']
    exact hm
  have hb' : w'.bets[betIdx]? = some { bet with claimed := true } := by
    rw [hw']
    simp only
    rw [List.getElem?_set_self hblt]
  obtain ⟨monM, monB⟩ := steps_mono h2
  obtain ⟨m2, hm2, hr2⟩ := monM mIdx market hm' hres
  obtain ⟨b2, hb2, hc2⟩ := monB betIdx _ hb' rfl
  unfold claim_payout claim_prepare
  simp [hm2, hb2, hr2, hc2]

/-- Witness for C3: in the concrete run, the winning wager's second claim
fails with `AlreadyClaimed`. -/
theorem C3_claim_payout_at_most_once_witness :
    claim_payout 0 0 2 true exW5 = .error (.code .AlreadyClaimed) :=
  C3_claim_payout_at_most_once exStep45 Relation.ReflTransGen.refl

/-- C4: In every successful `claim_payout`, the wager's `claimed` flag is set
strictly before the escrow transfer is invoked: the handler is
`claim_prepare` (all checks plus the `claimed := true` write, lib.rs line
148) followed by the transfer (line 151).  In the intermediate state `wmid`,
the one in force when the transfer is invoked, the wager is already claimed,
so a re-entrant or retried claim on the same record fails with
`AlreadyClaimed` regardless of whether the transfer has completed; the
transfer's outcome alone decides the rest of the call. -/
theorem C4_claimed_set_before_transfer {mIdx betIdx claimant : Nat}
    {w wmid : World} {payout : Nat}
    (h : claim_prepare mIdx betIdx claimant w = .ok (wmid, payout)) :
    (∃ b, wmid.bets[betIdx]? = some b ∧ b.claimed = true) ∧
    (∀ (claimant2 : Nat) (t2 : Bool),
      claim_payout mIdx betIdx claimant2 t2 wmid = .error (.code .AlreadyClaimed)) ∧
    (∀ t : Bool, claim_payout mIdx betIdx claimant t w =
      if t then .ok wmid else .error .transferFailed) := by
  obtain ⟨market, bet, wo, wp, hm, hb, hres, _, _, _, _, _, _, _, hw'⟩ :=
    claim_prepare_ok h
  have hblt : betIdx < w.bets.length := (List.getElem?_eq_some.mp hb).1
  have hm' : wmid.markets[mIdx]? = some market := by
    rw [hw']
    exact hm
  have hb' : wmid.bets[betIdx]? = some { bet with claimed := true } := by
    rw [hw']
    simp only
    rw [List.getElem?_set_self hblt]
  refine ⟨⟨{ bet with claimed := true }, hb', rfl⟩, ?_, ?_⟩
  · intro claimant2 t2
    unfold claim_payout claim_prepare
    simp [hm', hb', hres]
  · intro t
    unfold claim_payout
    rw [h]

/-- Witness for C4: in the concrete run, the claim with a failing transfer
aborts with `transferFailed` (committing nothing), and a retried claim
against the intermediate claimed state fails with `AlreadyClaimed`. -/
theorem C4_claimed_set_before_transfer_witness :
    claim_payout 0 0 2 false exW4 = .error .transferFailed ∧
    claim_payout 0 0 9 false exW5 = .error (.code .AlreadyClaimed) :=
  ⟨by simpa using
      (C4_claimed_set_before_transfer
        (show claim_prepare 0 0 2 exW4 = .ok (exW5, 400) from rfl)).2.2 false,
   (C4_claimed_set_before_transfer
        (show claim_prepare 0 0 2 exW4 = .ok (exW5, 400) from rfl)).2.1 9 false⟩

/-- C5: In every successful `place_bet` the deposit transfer into the
market's vault precedes the commit of the WagerRecord and the pool update: a
call whose transfer fails can never succeed and commits nothing (the market
and the would-be WagerRecord are untouched), and a call can only succeed
with a successful transfer, in which case the pool update and the appended
record are committed together. -/
theorem C5_transfer_before_commit (now : Int)
    (bettor mIdx outcome_index amount : Nat) (w : World) :
    (∀ w', place_bet now bettor mIdx outcome_index amount false w ≠ .ok w') ∧
    runInstr (place_bet now bettor mIdx outcome_index amount false w) w = w ∧
    (∀ (t : Bool) (w' : World),
      place_bet now bettor mIdx outcome_index amount t w = .ok w' →
      t = true ∧
      ∃ market p, w.markets[mIdx]? = some market ∧
        market.outcome_pools[outcome_index]? = some p ∧
        w' = { w with
                 markets := w.markets.set mIdx
                   { market with
                       outcome_pools := market.outcome_pools.set outcome_index (p + amount)
                       total_pool := market.total_pool + amount }
                 bets := w.bets ++
                   [{ bettor := bettor
                      market := mIdx
                      outcome_index := outcome_index
                      amount := amount
                      claimed := false
                      timestamp := now }] }) := by
  have h1 : ∀ w', place_bet now bettor mIdx outcome_index amount false w ≠ .ok w' := by
    intro w' hok
    obtain ⟨_, _, _, _, _, _, _, htr, _⟩ := place_bet_ok hok
    exact absurd htr (by simp)
  refine ⟨h1, ?_, ?_⟩
  · rcases hr : place_bet now bettor mIdx outcome_index amount false w with e | w'
    · rfl
    · exact absurd hr (h1 w')
  · intro t w' hok
    obtain ⟨market, p, hm, _, _, _, _, htr, hp, _, _, hw'⟩ := place_bet_ok hok
    exact ⟨htr, market, p, hm, hp, hw'⟩

/-- Witness for C5: the concrete bet with a failing transfer does not
produce the posted state and leaves the world unchanged. -/
theorem C5_transfer_before_commit_witness :
    place_bet 5 2 0 0 300 false exW1 ≠ .ok exW2 ∧
    runInstr (place_bet 5 2 0 0 300 false exW1) exW1 = exW1 :=
  ⟨(C5_transfer_before_commit 5 2 0 0 300 exW1).1 exW2,
   (C5_transfer_before_commit 5 2 0 0 300 exW1).2.1⟩

/-- C6: Deadline boundary semantics: `place_bet` at a time exactly equal to
the market's deadline fails with `BettingClosed` (the check is strict `<`,
lib.rs line 65), while `resolve_market` at exactly the deadline passes the
time check (`>=`, line 112) and succeeds whenever the other preconditions
hold. -/
theorem C6_deadline_boundary {w : World} {mIdx : Nat} {m : Market}
    (hm : w.markets[mIdx]? = some m) (hres : m.resolved = false) :
    (∀ (bettor outcome_index amount : Nat) (t : Bool),
      place_bet m.resolution_time bettor mIdx outcome_index amount t w =
        .error (.code .BettingClosed)) ∧
    (∀ i : Nat, i < m.outcomes.length →
      resolve_market m.resolution_time m.authority mIdx i w =
        .ok { w with
                markets := w.markets.set mIdx
                  { m with
                      resolved := true
                      winning_outcome := some i } }) := by
  constructor
  · intro bettor outcome_index amount t
    unfold place_bet
    simp [hm, hres]
  · intro i hi
    unfold resolve_market
    simp [hm, hres, hi]

/-- Witness for C6: on the concrete open market with deadline 100, a bet at
time 100 is rejected with `BettingClosed` and a resolution at time 100
succeeds. -/
theorem C6_deadline_boundary_witness :
    place_bet exM1.resolution_time 7 0 0 50 true exW1 =
      .error (.code .BettingClosed) ∧
    resolve_market exM1.resolution_time exM1.authority 0 1 exW1 =
      .ok { exW1 with
              markets := exW1.markets.set 0
                { exM1 with
                    resolved := true
                    winning_outcome := some 1 } } :=
  ⟨(C6_deadline_boundary (show exW1.markets[0]? = some exM1 from rfl) rfl).1
      7 0 50 true,
   (C6_deadline_boundary (show exW1.markets[0]? = some exM1 from rfl) rfl).2
      1 (by decide)⟩

/-- C7: a successful `create_market` gives the new market a `market_id`
equal to the registry's `market_count` before the call and increments
`market_count` by exactly 1; the three validation failures return
`InsufficientOutcomes` (fewer than 2 outcomes), `TooManyOutcomes` (more than
10) or `InvalidResolutionTime` (deadline not strictly in the future), and a
failed call commits nothing. -/
theorem C7_create_market_id_and_failures (now : Int) (authority : Nat)
    (question : String) (outcomes : List String) (rt : Int) (min_bet : Nat)
    (w : World) :
    (∀ w', create_market now authority question outcomes rt min_bet w = .ok w' →
      w'.global.market_count = w.global.market_count + 1 ∧
      ∃ m, w'.markets[w.markets.length]? = some m ∧
        m.market_id = w.global.market_count) ∧
    (outcomes.length < 2 →
      create_market now authority question outcomes rt min_bet w =
        .error (.code .InsufficientOutcomes)) ∧
    (10 < outcomes.length →
      create_market now authority question outcomes rt min_bet w =
        .error (.code .TooManyOutcomes)) ∧
    (2 ≤ outcomes.length → outcomes.length ≤ 10 → rt ≤ now →
      create_market now authority question outcomes rt min_bet w =
        .error (.code .InvalidResolutionTime)) ∧
    (∀ e, create_market now authority question outcomes rt min_bet w = .error e →
      runInstr (create_market now authority question outcomes rt min_bet w) w = w) := by
  refine ⟨?_, ?_, ?_, ?_, ?_⟩
  · intro w' hok
    obtain ⟨_, _, _, _, hw'⟩ := create_market_ok hok
    subst hw'
    exact ⟨rfl, _, List.getElem?_concat_length _ _, rfl⟩
  · intro hlt
    unfold create_market
    rw [if_pos (by omega)]
  · intro hgt
    unfold create_market
    rw [if_neg (by omega), if_pos (by omega)]
  · intro hge hle hts
    unfold create_market
    rw [if_neg (by omega), if_neg (by omega), if_pos (by omega)]
  · intro e he
    rw [he]
    rfl

/-- Witness for C7: the concrete creation increments the count from 0 to 1
and assigns id 0; creating with a single outcome fails with
`InsufficientOutcomes`. -/
theorem C7_create_market_id_and_failures_witness :
    (exW1.global.market_count = exW0.global.market_count + 1 ∧
      ∃ m, exW1.markets[exW0.markets.length]? = some m ∧
        m.market_id = exW0.global.market_count) ∧
    create_market 0 1 "q" ["Solo"] 100 1 exW0 =
      .error (.code .InsufficientOutcomes) :=
  ⟨(C7_create_market_id_and_failures 0 1 "q" ["Yes", "No"] 100 1 exW0).1
      exW1 exStep01,
   (C7_create_market_id_and_failures 0 1 "q" ["Solo"] 100 1 exW0).2.1
      (by decide)⟩

/-- C8: for every `resolve_market` call whose preconditions pass (caller is
the market's creator authority, market unresolved, time at or after the
deadline, index in range), the only state change is that market's `resolved`
and `winning_outcome` fields; in particular no entry of `outcome_pools`, not
`total_pool`, no other market, the registry and no bet change. -/
theorem C8_resolve_market_frame {now : Int} {caller mIdx i : Nat} {m : Market}
    {w : World}
    (hm : w.markets[mIdx]? = some m) (hcaller : caller = m.authority)
    (hres : m.resolved = false) (htime : m.resolution_time ≤ now)
    (hrange : i < m.outcomes.length) :
    resolve_market now caller mIdx i w =
      .ok { w with
              markets := w.markets.set mIdx
                { m with
                    resolved := true
                    winning_outcome := some i } } := by
  unfold resolve_market
  simp [hm, hcaller, hres, htime, hrange]

/-- Witness for C8: resolving the concrete market changes exactly its
`resolved` and `winning_outcome` fields, keeping pools [300, 100] and total
400. -/
theorem C8_resolve_market_frame_witness :
    resolve_market 100 1 0 0 exW3 =
      .ok { exW3 with
              markets := exW3.markets.set 0
                { exM3 with
                    resolved := true
                    winning_outcome := some 0 } } :=
  C8_resolve_market_frame (m := exM3) rfl rfl rfl (by decide) (by decide)

/-- Any entry of a list of naturals is at most the list's sum. -/
theorem getElem?_le_sum {l : List Nat} {i x : Nat} (h : l[i]? = some x) :
    x ≤ l.sum := by
  induction l generalizing i with
  | nil => simp at h
  | cons a l ih =>
    cases i with
    | zero =>
      simp only [List.getElem?_cons_zero, Option.some.injEq] at h
      simp [← h]
    | succ i =>
      simp only [List.getElem?_cons_succ] at h
      have := ih h
      simp only [List.sum_cons]
      omega

/-- C2: the payout computation of `claim_payout` on a resolved market whose
preconditions pass, with `winning_pool = market.outcome_pools[wo]`: the
`u128` product of two pool counters cannot overflow; if the winning pool is
zero the computed payout is 0; otherwise the computed payout is exactly
`floor(bet.amount * market.total_pool / winning_pool)` (for a wager of this
market the `as u64` narrowing is lossless, since `amount ≤ winning_pool`
forces `payout ≤ total_pool < 2^64`); and a zero computed payout makes the
call fail with `NoPayoutAvailable`, committing nothing. -/
theorem C2_payout_formula {w : World} (h : Reachable w)
    {mIdx betIdx claimant wo winning_pool : Nat} {market : Market} {bet : Bet}
    (hm : w.markets[mIdx]? = some market) (hb : w.bets[betIdx]? = some bet)
    (hbm : bet.market = mIdx) (hres : market.resolved = true)
    (hcl : bet.claimed = false) (hbet : bet.bettor = claimant)
    (hwo : market.winning_outcome = some wo) (hoi : bet.outcome_index = wo)
    (hp : market.outcome_pools[wo]? = some winning_pool) :
    bet.amount * market.total_pool < U64LIM * U64LIM ∧
    (winning_pool = 0 → payoutCalc bet.amount market.total_pool winning_pool = 0) ∧
    (0 < winning_pool → payoutCalc bet.amount market.total_pool winning_pool =
      bet.amount * market.total_pool / winning_pool) ∧
    (payoutCalc bet.amount market.total_pool winning_pool = 0 →
      ∀ t : Bool, claim_payout mIdx betIdx claimant t w =
        .error (.code .NoPayoutAvailable)) := by
  have hinv := reachable_worldInv h
  obtain ⟨_, _, _, hsum, hbound, _⟩ := hinv.1 mIdx market hm
  obtain ⟨m0, p0, hm0, hp0, hle0⟩ := hinv.2 betIdx bet hb
  have hmm0 : m0 = market := by
    rw [hbm, hm] at hm0
    simpa using hm0.symm
  rw [hmm0] at hp0
  rw [hoi, hp] at hp0
  simp only [Option.some.injEq] at hp0
  subst hp0
  have hwp_le : winning_pool ≤ market.total_pool := by
    rw [hsum]
    exact getElem?_le_sum hp
  have hamt_lt : bet.amount < U64LIM := by omega
  refine ⟨?_, ?_, ?_, ?_⟩
  · exact mul_lt_mul'' hamt_lt hbound (Nat.zero_le _) (Nat.zero_le _)
  · intro hz
    simp [payoutCalc, hz]
  · intro hpos
    have hdiv : bet.amount * market.total_pool / winning_pool ≤ market.total_pool := by
      calc bet.amount * market.total_pool / winning_pool
          ≤ winning_pool * market.total_pool / winning_pool :=
            Nat.div_le_div_right (Nat.mul_le_mul_right _ hle0)
        _ = market.total_pool := Nat.mul_div_cancel_left _ hpos
    unfold payoutCalc
    rw [if_pos hpos]
    exact Nat.mod_eq_of_lt (lt_of_le_of_lt hdiv hbound)
  · intro hpz t
    unfold claim_payout claim_prepare
    simp [hm, hb, hres, hcl, hbet, hwo, hoi, hp, hpz]

/-- Witness for C2: the concrete winning wager of 300 against total pool 400
and winning pool 300 is paid floor(300 * 400 / 300) = 400, and the product
fits. -/
theorem C2_payout_formula_witness :
    payoutCalc exB1.amount exM4.total_pool 300 =
      exB1.amount * exM4.total_pool / 300 ∧
    exB1.amount * exM4.total_pool < U64LIM * U64LIM :=
  ⟨(C2_payout_formula exReach4
      (show exW4.markets[0]? = some exM4 from rfl)
      (show exW4.bets[0]? = some exB1 from rfl)
      rfl rfl rfl rfl rfl rfl
      (show exM4.outcome_pools[0]? = some 300 from rfl)).2.2.1 (by decide),
   (C2_payout_formula exReach4
      (show exW4.markets[0]? = some exM4 from rfl)
      (show exW4.bets[0]? = some exB1 from rfl)
      rfl rfl rfl rfl rfl rfl
      (show exM4.outcome_pools[0]? = some 300 from rfl)).1⟩

/-- Upper bound: the flooring payouts, scaled by the winning pool, never
exceed the scaled stakes. -/
theorem payout_sum_mul_le (T W : Nat) (l : List Nat) :
    W * (l.map (fun a => a * T / W)).sum ≤ T * l.sum := by
  induction l with
  | nil => simp
  | cons a l ih =>
    simp only [List.map_cons, List.sum_cons]
    rw [Nat.mul_add, Nat.mul_add]
    have h1 : W * (a * T / W) ≤ a * T := by
      rw [Nat.mul_comm]
      exact Nat.div_mul_le_self _ _
    have h2 : T * a = a * T := Nat.mul_comm T a
    omega

/-- Lower bound: each flooring payout loses at most `W - 1` scaled units. -/
theorem payout_sum_mul_ge (T W : Nat) (hW : 0 < W) (l : List Nat) :
    T * l.sum ≤ W * (l.map (fun a => a * T / W)).sum + l.length * (W - 1) := by
  induction l with
  | nil => simp
  | cons a l ih =>
    simp only [List.map_cons, List.sum_cons, List.length_cons]
    have hmod : a * T % W < W := Nat.mod_lt _ hW
    have hdm := Nat.div_add_mod (a * T) W
    have h2 : T * a = a * T := Nat.mul_comm T a
    rw [Nat.mul_add, Nat.mul_add, Nat.add_mul, Nat.one_mul]
    omega

/-- C9: conservation with rounding dust.  For a resolved market whose winning
pool equals the sum of the winning wagers' amounts, the payouts
`floor(amount * total_pool / winning_pool)` sum to at most `total_pool`, and
the shortfall is at most one unit per winning wager beyond the first.  (The
hypothesis `total_pool < 2^64` holds for every reachable market, by
`reachable_worldInv`; the positivity of the winning pool is what makes the
division in the formula meaningful.) -/
theorem C9_conservation_with_dust {m : Market} {wo winning_pool : Nat}
    {amounts : List Nat}
    (_hres : m.resolved = true) (_hwo : m.winning_outcome = some wo)
    (hp : m.outcome_pools[wo]? = some winning_pool)
    (hT : m.total_pool < U64LIM)
    (hsum : amounts.sum = winning_pool) (hpos : 0 < winning_pool) :
    (amounts.map (fun a => payoutCalc a m.total_pool winning_pool)).sum
      ≤ m.total_pool ∧
    m.total_pool -
      (amounts.map (fun a => payoutCalc a m.total_pool winning_pool)).sum
      ≤ amounts.length - 1 := by
  have hmap : amounts.map (fun a => payoutCalc a m.total_pool winning_pool)
      = amounts.map (fun a => a * m.total_pool / winning_pool) := by
    apply List.map_congr_left
    intro a ha
    have hale : a ≤ winning_pool := by
      rw [← hsum]
      exact List.single_le_sum (fun x _ => Nat.zero_le x) a ha
    have hdle : a * m.total_pool / winning_pool ≤ m.total_pool := by
      calc a * m.total_pool / winning_pool
          ≤ winning_pool * m.total_pool / winning_pool :=
            Nat.div_le_div_right (Nat.mul_le_mul_right _ hale)
        _ = m.total_pool := Nat.mul_div_cancel_left _ hpos
    unfold payoutCalc
    rw [if_pos hpos]
    exact Nat.mod_eq_of_lt (lt_of_le_of_lt hdle hT)
  rw [hmap]
  have hub := payout_sum_mul_le m.total_pool winning_pool amounts
  have hlb := payout_sum_mul_ge m.total_pool winning_pool hpos amounts
  rw [hsum] at hub hlb
  have hn : 1 ≤ amounts.length := by
    rcases amounts with _ | ⟨a, l⟩
    · simp at hsum
      omega
    · simp
  have hupper :
      (amounts.map (fun a => a * m.total_pool / winning_pool)).sum
        ≤ m.total_pool := by
    rw [Nat.mul_comm m.total_pool winning_pool] at hub
    exact Nat.le_of_mul_le_mul_left hub hpos
  refine ⟨hupper, ?_⟩
  have hdist : amounts.length * (winning_pool - 1) + amounts.length
      = amounts.length * winning_pool := by
    obtain ⟨v, rfl⟩ : ∃ v, winning_pool = v + 1 := ⟨winning_pool - 1, by omega⟩
    simp [Nat.mul_succ]
  have hlt : m.total_pool <
      (amounts.map (fun a => a * m.total_pool / winning_pool)).sum
        + amounts.length := by
    apply Nat.lt_of_mul_lt_mul_left (a := winning_pool)
    have hexp : winning_pool *
        ((amounts.map (fun a => a * m.total_pool / winning_pool)).sum
          + amounts.length)
        = winning_pool *
            (amounts.map (fun a => a * m.total_pool / winning_pool)).sum
          + amounts.length * winning_pool := by
      rw [Nat.mul_add, Nat.mul_comm winning_pool amounts.length]
    have hcomm : winning_pool * m.total_pool
        = m.total_pool * winning_pool := Nat.mul_comm _ _
    omega
  omega

/-- Witness for C9 (the spec's Scenario B): three winning wagers of 10 each
against winning pool 30 and total pool 100 are paid 33 each; 99 ≤ 100 and
the 1 unit of dust is within the bound 3 - 1. -/
theorem C9_conservation_with_dust_witness :
    ([10, 10, 10].map (fun a => payoutCalc a 100 30)).sum ≤ 100 ∧
    100 - ([10, 10, 10].map (fun a => payoutCalc a 100 30)).sum ≤ 3 - 1 :=
  C9_conservation_with_dust (m := { authority := 1
                                    market_id := 7
                                    question := "s"
                                    outcomes := ["A", "B"]
                                    outcome_pools := [30, 70]
                                    resolution_time := 10
                                    min_bet := 1
                                    resolved := true
                                    winning_outcome := some 0
                                    total_pool := 100
                                    created_at := 0 })
    rfl rfl rfl (by decide) rfl (by decide)
